import Mathlib

/-
Verification of the via generator (via_gen.py): the layer-order resolver,
the via-stack synthesizer and the via-array packer, shallowly embedded over
rational design-rule values.  Geometry is a list of axis-aligned rectangles
with a center anchor; flattening a component is the identity on this
representation, so flattened and unflattened results coincide.
-/

set_option autoImplicit false

namespace ViaGen

/-- Failures raised by the generator.  In the Python source each one is a
ValueError; the constructors record which raise site fired:
invalidLayer is the message about two routable layers in the resolver,
areaTooSmall is the via_array size message, and intParseFail models the
ValueError that int() raises when the trailing character of a metal layer
name is not a digit. -/
inductive Err where
  | invalidLayer
  | areaTooSmall
  | intParseFail
deriving DecidableEq

/-- An axis-aligned rectangle on a generic layer, anchored at its center
(the source always passes centered=True and then translates references).
The translation from a generic layer name to the concrete PDK layer tuple
is an external injection applied uniformly at emission, so the generic
name is kept as the layer identity. -/
structure Rect where
  glayer : String
  w : ℚ
  h : ℚ
  x : ℚ
  y : ℚ
deriving DecidableEq

/-- The slice of the external MappedPDK interface that via_gen.py consumes:
routability queries and the string-keyed design-rule table.  Rule values
are modelled as rationals (the source uses decimal micron values). -/
structure MappedPDK where
  is_routable : String → Bool
  rule_width : String → ℚ
  rule_min_width : String → ℚ
  rule_min_enclosure : String → String → ℚ
  rule_min_sep : String → ℚ

/-- Substring test for the Python expression about the string met being
contained in a layer name. -/
def containsMet (s : String) : Bool :=
  s.data.tails.any fun t => "met".data.isPrefixOf t

/-- The numeric value of the last character of a name when it is a decimal
digit; none models the ValueError of int() on a non-digit (and the
out-of-range access on an empty name, which no metal name can be). -/
def lastCharDigit (s : String) : Option ℕ :=
  match s.data.getLast? with
  | some c => if c.isDigit then some (c.toNat - 48) else none
  | none => none

/-- Level extraction of the resolver: int(glayer[-1]) if met in glayer
else 0. -/
def glayerLevel (s : String) : Except Err ℕ :=
  if containsMet s then
    match lastCharDigit s with
    | some d => Except.ok d
    | none => Except.error Err.intParseFail
  else Except.ok 0

/-- The private helper __error_check_order_layers: validate that both
layers are routable, extract the numeric levels, and return them sorted
ascending. -/
def error_check_order_layers (pdk : MappedPDK) (g1 g2 : String) :
    Except Err (ℕ × ℕ) :=
  if !(pdk.is_routable g1 && pdk.is_routable g2) then
    Except.error Err.invalidLayer
  else
    match glayerLevel g1, glayerLevel g2 with
    | Except.ok l1, Except.ok l2 =>
        Except.ok (if l1 > l2 then (l2, l1) else (l1, l2))
    | Except.error e, _ => Except.error e
    | _, Except.error e => Except.error e

/-- Helper names met0, met1, ... built by string concatenation as in the
source. -/
def metStr (l : ℕ) : String := "met" ++ toString l

/-- Helper names via0, via1, ... built by string concatenation as in the
source. -/
def viaStr (l : ℕ) : String := "via" ++ toString l

/-- A centered square cut on a via or contact layer, of side equal to the
width rule of that layer. -/
def viaCutRect (pdk : MappedPDK) (v : String) : Rect :=
  let d := pdk.rule_width v
  { glayer := v, w := d, h := d, x := 0, y := 0 }

/-- A centered square metal pad enclosing an adjacent via or contact
layer: side = max(2 * min_enclosure(met, via) + width(via),
min_width(met)).  All three pad emissions in via_stack use exactly this
formula. -/
def metPadRect (pdk : MappedPDK) (met vlayer : String) : Rect :=
  let metdim := max (2 * pdk.rule_min_enclosure met vlayer + pdk.rule_width vlayer)
    (pdk.rule_min_width met)
  { glayer := met, w := metdim, h := metdim, x := 0, y := 0 }

/-- The loop body of via_stack: for each level from a up to b excluded,
a metal pad at that level sized against the via above it, then the via
cut itself. -/
def stackLoopRects (pdk : MappedPDK) (a b : ℕ) : List Rect :=
  (List.range (b - a)).flatMap fun k =>
    [metPadRect pdk (metStr (a + k)) (viaStr (a + k)),
     viaCutRect pdk (viaStr (a + k))]

/-- The rectangles laid by via_stack for resolved levels l1 <= l2 with
l1 < l2 (the equal case returns the empty component before reaching this
point).  When l1 = 0 the base contact (mcon cut plus met1 pad) is laid
and the level is promoted to 1; if promotion reaches l2 the base pair is
the whole stack, otherwise the metal/via traversal runs and a final pad
at l2 is sized against the last traversed via. -/
def stackRects (pdk : MappedPDK) (l1 l2 : ℕ) : List Rect :=
  let base := if l1 = 0 then [viaCutRect pdk "mcon", metPadRect pdk "met1" "mcon"]
    else []
  let l1p := if l1 = 0 then 1 else l1
  if l1p = l2 then base
  else base ++ stackLoopRects pdk l1p l2 ++
    [metPadRect pdk (metStr l2) (viaStr (l2 - 1))]

/-- via_stack: resolve and order the two layers, return the empty
component when the levels coincide, else the stack of rectangles.
Flattening is the identity on the list representation. -/
def via_stack (pdk : MappedPDK) (g1 g2 : String) : Except Err (List Rect) :=
  match error_check_order_layers pdk g1 g2 with
  | Except.error e => Except.error e
  | Except.ok (l1, l2) =>
      if l1 = l2 then Except.ok [] else Except.ok (stackRects pdk l1 l2)

/-- The list of minimum-separation rules consulted by via_array: the base
contact separation when the lower level is 0, then for every traversed
level the metal separation followed by the via separation, then the
separation of the final metal. -/
def spacingList (pdk : MappedPDK) (l1 l2 : ℕ) : List ℚ :=
  (if l1 = 0 then [pdk.rule_min_sep "mcon"] else []) ++
  ((List.range (l2 - (if l1 = 0 then 1 else l1))).flatMap fun k =>
    [pdk.rule_min_sep (metStr ((if l1 = 0 then 1 else l1) + k)),
     pdk.rule_min_sep (viaStr ((if l1 = 0 then 1 else l1) + k))]) ++
  [pdk.rule_min_sep (metStr l2)]

/-- Maximum of a list of rationals; the empty case never arises at call
sites (Python max would raise there). -/
def listMaxQ : List ℚ → ℚ
  | [] => 0
  | a :: as => as.foldl max a

/-- Minimum of a list of rationals; the empty case never arises at call
sites. -/
def listMinQ : List ℚ → ℚ
  | [] => 0
  | a :: as => as.foldl min a

/-- Bounding-box extent of a component along x: xmax - xmin over the
stored rectangles. -/
def bboxSpanX (rs : List Rect) : ℚ :=
  listMaxQ (rs.map fun r => r.x + r.w / 2) - listMinQ (rs.map fun r => r.x - r.w / 2)

/-- Bounding-box extent of a component along y: ymax - ymin over the
stored rectangles. -/
def bboxSpanY (rs : List Rect) : ℚ :=
  listMaxQ (rs.map fun r => r.y + r.h / 2) - listMinQ (rs.map fun r => r.y - r.h / 2)

/-- The square bounding dimension of the reference stack: the larger of
its two bounding-box extents. -/
def viadimOf (rs : List Rect) : ℚ := max (bboxSpanX rs) (bboxSpanY rs)

/-- The Python idiom floor(...) or 1: zero becomes one, every other
integer is kept. -/
def orOne (n : ℤ) : ℤ := if n = 0 then 1 else n

/-- Ceiling of half an index, the Python ceil(vianum / 2) on a natural
loop index. -/
def ceilHalf (i : ℕ) : ℕ := (i + 1) / 2

/-- Signed offset of instance i in an axis with the given instance count:
(-1)^i * ceil(i/2) full pitches, plus half a pitch when the count is
even. -/
def offsetFor (count i : ℕ) (pitch : ℚ) : ℚ :=
  ((-1 : ℚ) ^ i * (ceilHalf i : ℚ)) * pitch +
    (if count % 2 = 0 then pitch / 2 else 0)

/-- Translate a rectangle reference by the given displacement (the movex
and movey calls on a placed reference). -/
def moveRect (r : Rect) (dx dy : ℚ) : Rect := { r with x := r.x + dx, y := r.y + dy }

/-- The grid of stack instances placed by via_array: a horizontal row of
nx stacks offset along x, replicated ny times with the same offset scheme
along y, flattened in placement order. -/
def arrayRects (stack : List Rect) (nx ny : ℕ) (pitch : ℚ) : List Rect :=
  (List.range ny).flatMap fun j =>
    (List.range nx).flatMap fun i =>
      stack.map fun r => moveRect r (offsetFor nx i pitch) (offsetFor ny j pitch)

/-- via_array: resolve and order the layers, return the empty component on
equal levels, compute the pitch margin from the separation rules, measure
the reference stack, fail when it exceeds either requested dimension,
derive per-axis instance counts with the floor-or-one rule, place the
centered grid, and cap it with a top-metal plate of exactly the requested
size. -/
def via_array (pdk : MappedPDK) (g1 g2 : String) (size : ℚ × ℚ) :
    Except Err (List Rect) :=
  match error_check_order_layers pdk g1 g2 with
  | Except.error e => Except.error e
  | Except.ok (l1, l2) =>
      if l1 = l2 then Except.ok []
      else
        let via_spacing := listMaxQ (spacingList pdk l1 l2)
        match via_stack pdk g1 g2 with
        | Except.error e => Except.error e
        | Except.ok stack =>
            let viadim := viadimOf stack
            if viadim > size.1 ∨ viadim > size.2 then Except.error Err.areaTooSmall
            else
              let viaspacing_full := via_spacing + viadim
              let nx := orOne ⌊size.1 / (viadim + via_spacing)⌋
              let ny := orOne ⌊size.2 / (viadim + via_spacing)⌋
              Except.ok (arrayRects stack nx.toNat ny.toNat viaspacing_full ++
                [{ glayer := metStr l2, w := size.1, h := size.2, x := 0, y := 0 }])

/-- A concrete rule table in the style of the gf180 mapping, used to
instantiate the theorems: routable layers are the base layers and five
metals, and the numeric rules follow the documented example values
(mcon width 0.22, met1 min width 0.36, met1/mcon enclosure 0.07). -/
def exPDK : MappedPDK where
  is_routable g :=
    ["active_diff", "active_tap", "poly", "met1", "met2", "met3", "met4", "met5"].contains g
  rule_width g :=
    if g = "mcon" then 22/100
    else if g = "via1" then 15/100
    else if g = "via2" then 2/10
    else if g = "via3" then 2/10
    else if g = "via4" then 2/10
    else 2/10
  rule_min_width g :=
    if g = "met1" then 36/100
    else if g = "met2" then 14/100
    else if g = "met3" then 3/10
    else 3/10
  rule_min_enclosure g v :=
    if g = "met1" ∧ v = "mcon" then 7/100
    else if g = "met1" ∧ v = "via1" then 6/100
    else 6/100
  rule_min_sep g :=
    if g = "mcon" then 19/100
    else if g = "met1" then 14/100
    else if g = "via1" then 17/100
    else if g = "met2" then 14/100
    else 1/4

/-- Integer form of the interleave multiplier (-1)^i * ceil(i/2) used by
the packer placement. -/
def signedRank (i : ℕ) : ℤ := (-1) ^ i * (ceilHalf i : ℤ)

/-- Offsets in half-pitch units: offsetFor count i pitch equals
uVal count i * pitch / 2. -/
def uVal (count i : ℕ) : ℤ :=
  2 * signedRank i + (if count % 2 = 0 then 1 else 0)

deriving instance DecidableEq for Except

lemma glayerLevel_error_eq {s : String} {e : Err}
    (h : glayerLevel s = Except.error e) : e = Err.intParseFail := by
  unfold glayerLevel at h
  split at h
  · split at h
    · exact absurd h (by simp)
    · cases h
      rfl
  · exact absurd h (by simp)

lemma error_check_comm (pdk : MappedPDK) (g1 g2 : String) :
    error_check_order_layers pdk g1 g2 = error_check_order_layers pdk g2 g1 := by
  unfold error_check_order_layers
  rw [Bool.and_comm]
  split
  · rfl
  · rcases h1 : glayerLevel g1 with e1 | l1 <;> rcases h2 : glayerLevel g2 with e2 | l2
    · rw [glayerLevel_error_eq h1, glayerLevel_error_eq h2]
    · rfl
    · rfl
    · show Except.ok (if l1 > l2 then (l2, l1) else (l1, l2)) =
        Except.ok (if l2 > l1 then (l1, l2) else (l2, l1))
      split <;> split <;> simp_all [Prod.ext_iff] <;> omega

lemma via_stack_eq_of_check {pdk : MappedPDK} {g1 g2 : String} {l1 l2 : ℕ}
    (h : error_check_order_layers pdk g1 g2 = Except.ok (l1, l2)) :
    via_stack pdk g1 g2 =
      if l1 = l2 then Except.ok [] else Except.ok (stackRects pdk l1 l2) := by
  unfold via_stack
  rw [h]

lemma stackRects_shapes {pdk : MappedPDK} {l1 l2 : ℕ} {r : Rect}
    (hr : r ∈ stackRects pdk l1 l2) :
    (∃ v, r = viaCutRect pdk v) ∨ ∃ m v, r = metPadRect pdk m v := by
  simp only [stackRects, stackLoopRects] at hr
  by_cases h0 : l1 = 0 <;> simp only [h0, if_true, if_false, reduceIte] at hr <;>
    split at hr <;>
    simp only [List.mem_append, List.mem_cons, List.mem_flatMap, List.mem_range,
      List.not_mem_nil, or_false, false_or] at hr <;>
    aesop

lemma stackRects_square_centered {pdk : MappedPDK} {l1 l2 : ℕ} {r : Rect}
    (hr : r ∈ stackRects pdk l1 l2) : r.w = r.h ∧ r.x = 0 ∧ r.y = 0 := by
  rcases stackRects_shapes hr with ⟨v, rfl⟩ | ⟨m, v, rfl⟩ <;> exact ⟨rfl, rfl, rfl⟩

lemma stackLoopRects_length (pdk : MappedPDK) (a b : ℕ) :
    (stackLoopRects pdk a b).length = 2 * (b - a) := by
  unfold stackLoopRects
  generalize b - a = n
  induction n with
  | zero => rfl
  | succ k ih =>
      rw [List.range_succ, List.flatMap_append, List.length_append, ih]
      simp [Nat.mul_succ]

lemma stackRects_length (pdk : MappedPDK) (l1 l2 : ℕ) (hlt : l1 < l2) :
    (stackRects pdk l1 l2).length =
      if l1 = 0 ∧ l2 = 1 then 2 else 2 * (l2 - l1) + 1 := by
  simp only [stackRects]
  by_cases h0 : l1 = 0 <;> simp only [h0, reduceIte]
  · by_cases h1 : l2 = 1
    · simp [h1]
    · have h1' : ¬(1 = l2) := by omega
      simp [h1, h1', stackLoopRects_length]
      omega
  · have hne : ¬(l1 = l2) := by omega
    simp [hne, h0, stackLoopRects_length]

/-- C2: via_stack is commutative in its two layer arguments: for every rule
table and every pair of layer names the produced result is identical,
because the layer-order resolver returns the same ascending pair for both
argument orders. -/
theorem via_stack_commutative (pdk : MappedPDK) (g1 g2 : String) :
    via_stack pdk g1 g2 = via_stack pdk g2 g1 := by
  unfold via_stack
  rw [error_check_comm]

/-- C3: for every layer A that the rule table deems routable and whose
numeric level resolves, via_stack on the pair (A, A) returns the empty
geometry as an ordinary result, not an error. -/
theorem via_stack_identity_empty (pdk : MappedPDK) (g : String) (l : ℕ)
    (hr : pdk.is_routable g = true) (hl : glayerLevel g = Except.ok l) :
    via_stack pdk g g = Except.ok [] := by
  have hcheck : error_check_order_layers pdk g g = Except.ok (l, l) := by
    simp [error_check_order_layers, hr, hl]
  rw [via_stack_eq_of_check hcheck]
  simp

/-- Witness for C3 at the concrete layer met2 of the example rule table. -/
theorem via_stack_identity_empty_witness :
    exPDK.is_routable "met2" = true ∧ glayerLevel "met2" = Except.ok 2 ∧
      via_stack exPDK "met2" "met2" = Except.ok [] :=
  ⟨by decide, by decide, via_stack_identity_empty exPDK "met2" 2 (by decide) (by decide)⟩

/-- C8: the resolver assigns level 0 to a layer whose name does not contain
the substring met, and to a metal layer whose name ends in a decimal digit
it assigns the numeric value of that trailing digit. -/
theorem resolver_level_extraction (s : String) (d : ℕ) :
    (containsMet s = false → glayerLevel s = Except.ok 0) ∧
    (containsMet s = true → lastCharDigit s = some d → glayerLevel s = Except.ok d) := by
  constructor
  · intro h
    simp [glayerLevel, h]
  · intro h1 h2
    simp [glayerLevel, h1, h2]

/-- Witness for C8 at the metal layer met3 and the base layer active_diff. -/
theorem resolver_level_extraction_witness :
    glayerLevel "met3" = Except.ok 3 ∧ glayerLevel "active_diff" = Except.ok 0 :=
  ⟨(resolver_level_extraction "met3" 3).2 (by decide) (by decide),
   (resolver_level_extraction "active_diff" 0).1 (by decide)⟩

/-- C10: with a non-routable layer passed twice, both via_stack and
via_array fail with the invalid-layer error instead of returning the empty
geometry: routability validation precedes the identical-levels check. -/
theorem routability_before_identity (pdk : MappedPDK) (g : String) (size : ℚ × ℚ)
    (h : pdk.is_routable g = false) :
    via_stack pdk g g = Except.error Err.invalidLayer ∧
      via_array pdk g g size = Except.error Err.invalidLayer := by
  have hcheck : error_check_order_layers pdk g g = Except.error Err.invalidLayer := by
    simp [error_check_order_layers, h]
  constructor
  · unfold via_stack
    rw [hcheck]
  · unfold via_array
    rw [hcheck]

/-- Witness for C10 at a concrete non-routable layer name. -/
theorem routability_before_identity_witness :
    exPDK.is_routable "foo" = false ∧
      via_stack exPDK "foo" "foo" = Except.error Err.invalidLayer ∧
      via_array exPDK "foo" "foo" (4, 2) = Except.error Err.invalidLayer :=
  ⟨by decide, (routability_before_identity exPDK "foo" (4, 2) (by decide)).1,
   (routability_before_identity exPDK "foo" (4, 2) (by decide)).2⟩

lemma stackRects_shapes_adjacent {pdk : MappedPDK} {l1 l2 : ℕ} (hlt : l1 < l2)
    {r : Rect} (hr : r ∈ stackRects pdk l1 l2) :
    (∃ v, r = viaCutRect pdk v) ∨
    ∃ m v, r = metPadRect pdk m v ∧
      ((m = "met1" ∧ v = "mcon" ∧ l1 = 0) ∨
       (∃ L, (if l1 = 0 then 1 else l1) ≤ L ∧ L < l2 ∧
         m = metStr L ∧ v = viaStr L) ∨
       (m = metStr l2 ∧ v = viaStr (l2 - 1) ∧ (if l1 = 0 then 1 else l1) < l2)) := by
  simp only [stackRects, stackLoopRects] at hr
  by_cases h0 : l1 = 0 <;> simp only [h0, if_true, if_false, reduceIte] at hr ⊢ <;>
    split at hr <;>
    simp only [List.mem_append, List.mem_cons, List.mem_flatMap, List.mem_range,
      List.not_mem_nil, or_false, false_or] at hr
  · rcases hr with h | h
    · exact Or.inl ⟨"mcon", h⟩
    · exact Or.inr ⟨"met1", "mcon", h, Or.inl ⟨rfl, rfl, trivial⟩⟩
  · rcases hr with ((h | h) | ⟨k, hk, h | h⟩) | h
    · exact Or.inl ⟨"mcon", h⟩
    · exact Or.inr ⟨"met1", "mcon", h, Or.inl ⟨rfl, rfl, trivial⟩⟩
    · exact Or.inr ⟨_, _, h, Or.inr (Or.inl ⟨1 + k, by omega, by omega, rfl, rfl⟩)⟩
    · exact Or.inl ⟨_, h⟩
    · exact Or.inr ⟨_, _, h, Or.inr (Or.inr ⟨rfl, rfl, by omega⟩)⟩
  · rcases hr with ⟨k, hk, h | h⟩ | h
    · exact Or.inr ⟨_, _, h, Or.inr (Or.inl ⟨l1 + k, by omega, by omega, rfl, rfl⟩)⟩
    · exact Or.inl ⟨_, h⟩
    · exact Or.inr ⟨_, _, h, Or.inr (Or.inr ⟨rfl, rfl, by omega⟩)⟩

/-- C1: for a routable pair with distinct resolved levels, every rectangle
emitted by via_stack is either a via/contact cut, or a metal pad sized
against the via/contact layer that is adjacent to it in the stack (mcon
for the base met1 pad, the via at the same level for a traversal pad, the
via below the final level for the top pad), with side length equal to the
maximum of (2 times the enclosure rule of that metal against that
adjacent via/contact plus the width rule of that via/contact) and the
minimum-width rule of the metal; hence every pad side is at least the
minimum width and at least the enclosure-driven minimum. -/
theorem via_stack_pad_sizing (pdk : MappedPDK) (g1 g2 : String) (rs : List Rect)
    (l1 l2 : ℕ) (hcheck : error_check_order_layers pdk g1 g2 = Except.ok (l1, l2))
    (hlt : l1 < l2) (hok : via_stack pdk g1 g2 = Except.ok rs) :
    ∀ r ∈ rs, (∃ v, r = viaCutRect pdk v) ∨
      ∃ m v, r = metPadRect pdk m v ∧
        ((m = "met1" ∧ v = "mcon" ∧ l1 = 0) ∨
         (∃ L, (if l1 = 0 then 1 else l1) ≤ L ∧ L < l2 ∧
           m = metStr L ∧ v = viaStr L) ∨
         (m = metStr l2 ∧ v = viaStr (l2 - 1) ∧ (if l1 = 0 then 1 else l1) < l2)) ∧
        r.w = max (2 * pdk.rule_min_enclosure m v + pdk.rule_width v)
          (pdk.rule_min_width m) ∧
        r.h = r.w ∧ pdk.rule_min_width m ≤ r.w ∧
        2 * pdk.rule_min_enclosure m v + pdk.rule_width v ≤ r.w := by
  rw [via_stack_eq_of_check hcheck, if_neg (Nat.ne_of_lt hlt)] at hok
  cases hok
  intro r hr
  rcases stackRects_shapes_adjacent hlt hr with ⟨v, rfl⟩ | ⟨m, v, rfl, hadj⟩
  · exact Or.inl ⟨v, rfl⟩
  · exact Or.inr ⟨m, v, rfl, hadj, rfl, rfl, le_max_right _ _, le_max_left _ _⟩

/-- Witness for C1: the met1 pad of the met1-met2 stack of the example
rule table satisfies the sizing disjunction, with its adjacent via/contact
pinned to via1. -/
theorem via_stack_pad_sizing_witness :
    (∃ v, metPadRect exPDK "met1" "via1" = viaCutRect exPDK v) ∨
      ∃ m v, metPadRect exPDK "met1" "via1" = metPadRect exPDK m v ∧
        ((m = "met1" ∧ v = "mcon" ∧ 1 = 0) ∨
         (∃ L, (if 1 = 0 then 1 else 1) ≤ L ∧ L < 2 ∧
           m = metStr L ∧ v = viaStr L) ∨
         (m = metStr 2 ∧ v = viaStr (2 - 1) ∧ (if 1 = 0 then 1 else 1) < 2)) ∧
        (metPadRect exPDK "met1" "via1").w =
          max (2 * exPDK.rule_min_enclosure m v + exPDK.rule_width v)
            (exPDK.rule_min_width m) ∧
        (metPadRect exPDK "met1" "via1").h = (metPadRect exPDK "met1" "via1").w ∧
        exPDK.rule_min_width m ≤ (metPadRect exPDK "met1" "via1").w ∧
        2 * exPDK.rule_min_enclosure m v + exPDK.rule_width v ≤
          (metPadRect exPDK "met1" "via1").w :=
  via_stack_pad_sizing exPDK "met1" "met2"
    [metPadRect exPDK "met1" "via1", viaCutRect exPDK "via1",
      metPadRect exPDK "met2" "via1"] 1 2 (by decide) (by decide) rfl
    (metPadRect exPDK "met1" "via1") (List.mem_cons_self _ _)

/-- C9 counterexample: for the routable pair (active_diff, met1) the
resolved levels (0, 1) are distinct, yet the flattened stack holds 2
rectangles, not 2 * (1 - 0) + 1 = 3: the promoted met1 pad doubles as the
final pad, so no separate top pad is emitted for this pair. -/
theorem via_stack_count_counterexample :
    error_check_order_layers exPDK "active_diff" "met1" = Except.ok (0, 1) ∧
    via_stack exPDK "active_diff" "met1" =
      Except.ok [viaCutRect exPDK "mcon", metPadRect exPDK "met1" "mcon"] ∧
    ([viaCutRect exPDK "mcon", metPadRect exPDK "met1" "mcon"] : List Rect).length ≠
      2 * (1 - 0) + 1 :=
  ⟨by decide, rfl, by decide⟩

/-- C9 amended: for distinct resolved levels the stack holds exactly
2 * (level_high - level_low) + 1 rectangles except for the base pair
resolving to (0, 1), which holds exactly 2; every rectangle is a square
centered on the shared origin. -/
theorem via_stack_rect_count_amended (pdk : MappedPDK) (g1 g2 : String)
    (rs : List Rect) (l1 l2 : ℕ)
    (hcheck : error_check_order_layers pdk g1 g2 = Except.ok (l1, l2))
    (hlt : l1 < l2) (hok : via_stack pdk g1 g2 = Except.ok rs) :
    rs.length = (if l1 = 0 ∧ l2 = 1 then 2 else 2 * (l2 - l1) + 1) ∧
    ∀ r ∈ rs, r.w = r.h ∧ r.x = 0 ∧ r.y = 0 := by
  rw [via_stack_eq_of_check hcheck] at hok
  have hne : ¬(l1 = l2) := by omega
  simp only [hne, reduceIte, if_false] at hok
  cases hok
  exact ⟨stackRects_length pdk l1 l2 hlt, fun r hr => stackRects_square_centered hr⟩

/-- Witness for the amended C9 at the pair (met1, met3): five rectangles,
all squares centered on the origin. -/
theorem via_stack_rect_count_amended_witness :
    ([metPadRect exPDK "met1" "via1", viaCutRect exPDK "via1",
      metPadRect exPDK "met2" "via2", viaCutRect exPDK "via2",
      metPadRect exPDK "met3" "via2"] : List Rect).length =
        (if 1 = 0 ∧ 3 = 1 then 2 else 2 * (3 - 1) + 1) ∧
    ∀ r ∈ ([metPadRect exPDK "met1" "via1", viaCutRect exPDK "via1",
      metPadRect exPDK "met2" "via2", viaCutRect exPDK "via2",
      metPadRect exPDK "met3" "via2"] : List Rect), r.w = r.h ∧ r.x = 0 ∧ r.y = 0 :=
  via_stack_rect_count_amended exPDK "met1" "met3"
    [metPadRect exPDK "met1" "via1", viaCutRect exPDK "via1",
      metPadRect exPDK "met2" "via2", viaCutRect exPDK "via2",
      metPadRect exPDK "met3" "via2"] 1 3 (by decide) (by decide) rfl

lemma le_foldl_max (as : List ℚ) (a : ℚ) : a ≤ as.foldl max a := by
  induction as generalizing a with
  | nil => exact le_refl a
  | cons b bs ih => exact le_trans (le_max_left a b) (ih (max a b))

lemma mem_le_foldl_max (as : List ℚ) (a x : ℚ) (hx : x ∈ as) : x ≤ as.foldl max a := by
  induction as generalizing a with
  | nil => cases hx
  | cons b bs ih =>
      rcases List.mem_cons.mp hx with rfl | h
      · exact le_trans (le_max_right a x) (le_foldl_max bs (max a x))
      · exact ih (max a b) h

lemma foldl_max_mem (as : List ℚ) (a : ℚ) : as.foldl max a ∈ a :: as := by
  induction as generalizing a with
  | nil => exact List.mem_singleton.mpr rfl
  | cons b bs ih =>
      rw [List.foldl_cons]
      rcases List.mem_cons.mp (ih (max a b)) with h | h
      · rcases max_choice a b with h2 | h2 <;> rw [h, h2]
        · exact List.mem_cons_self _ _
        · exact List.mem_cons_of_mem _ (List.mem_cons_self _ _)
      · exact List.mem_cons_of_mem _ (List.mem_cons_of_mem _ h)

lemma listMaxQ_spec (l : List ℚ) (hne : l ≠ []) :
    listMaxQ l ∈ l ∧ ∀ x ∈ l, x ≤ listMaxQ l := by
  match l with
  | a :: as =>
      refine ⟨foldl_max_mem as a, fun x hx => ?_⟩
      rcases List.mem_cons.mp hx with rfl | h
      · exact le_foldl_max as x
      · exact mem_le_foldl_max as a x h

lemma exists_shift {base b : ℕ} {P : ℕ → Prop} :
    (∃ k, k < b - base ∧ P (base + k)) ↔ ∃ L, base ≤ L ∧ L < b ∧ P L := by
  constructor
  · rintro ⟨k, hk, hP⟩
    exact ⟨base + k, by omega, by omega, hP⟩
  · rintro ⟨L, h1, h2, hP⟩
    refine ⟨L - base, by omega, ?_⟩
    have h3 : base + (L - base) = L := by omega
    rw [h3]
    exact hP

lemma spacingList_mem_iff (pdk : MappedPDK) (l1 l2 : ℕ) (s : ℚ) :
    s ∈ spacingList pdk l1 l2 ↔
      (l1 = 0 ∧ s = pdk.rule_min_sep "mcon") ∨
      (∃ L, (if l1 = 0 then 1 else l1) ≤ L ∧ L < l2 ∧
        (s = pdk.rule_min_sep (metStr L) ∨ s = pdk.rule_min_sep (viaStr L))) ∨
      s = pdk.rule_min_sep (metStr l2) := by
  unfold spacingList
  by_cases h0 : l1 = 0
  · simp only [h0, reduceIte, List.mem_append, List.mem_cons, List.mem_flatMap,
      List.mem_range, List.not_mem_nil, List.mem_singleton, false_or, or_false,
      true_and, eq_self_iff_true]
    constructor
    · rintro ((h | ⟨k, hk, h⟩) | h)
      · exact Or.inl h
      · exact Or.inr (Or.inl ⟨1 + k, by omega, by omega, h⟩)
      · exact Or.inr (Or.inr h)
    · rintro (h | ⟨L, hL1, hL2, h⟩ | h)
      · exact Or.inl (Or.inl h)
      · refine Or.inl (Or.inr ⟨L - 1, by omega, ?_⟩)
        have h3 : 1 + (L - 1) = L := by omega
        rw [h3]
        exact h
      · exact Or.inr h
  · simp only [h0, if_false, List.mem_append, List.mem_cons, List.mem_flatMap,
      List.mem_range, List.not_mem_nil, List.mem_singleton, false_or, or_false,
      false_and]
    constructor
    · rintro (⟨k, hk, h⟩ | h)
      · exact Or.inl ⟨l1 + k, by omega, by omega, h⟩
      · exact Or.inr h
    · rintro (⟨L, hL1, hL2, h⟩ | h)
      · refine Or.inl ⟨L - l1, by omega, ?_⟩
        have h3 : l1 + (L - l1) = L := by omega
        rw [h3]
        exact h
      · exact Or.inr h

/-- C5: the pitch margin used by via_array is the maximum of the
separation rules of exactly the layers touched by a single-stack
synthesis: the base contact separation when the low level is 0, each
traversed metal and via separation, and the final metal separation.  The
first conjunct characterizes the consulted set, the others state that the
margin is an upper bound drawn from that set. -/
theorem via_array_pitch_margin_spec (pdk : MappedPDK) (l1 l2 : ℕ) (s : ℚ) :
    (s ∈ spacingList pdk l1 l2 ↔
      (l1 = 0 ∧ s = pdk.rule_min_sep "mcon") ∨
      (∃ L, (if l1 = 0 then 1 else l1) ≤ L ∧ L < l2 ∧
        (s = pdk.rule_min_sep (metStr L) ∨ s = pdk.rule_min_sep (viaStr L))) ∨
      s = pdk.rule_min_sep (metStr l2)) ∧
    (s ∈ spacingList pdk l1 l2 → s ≤ listMaxQ (spacingList pdk l1 l2)) ∧
    listMaxQ (spacingList pdk l1 l2) ∈ spacingList pdk l1 l2 := by
  have hmem : pdk.rule_min_sep (metStr l2) ∈ spacingList pdk l1 l2 := by
    unfold spacingList
    simp
  obtain ⟨h1, h2⟩ := listMaxQ_spec _ (List.ne_nil_of_mem hmem)
  exact ⟨spacingList_mem_iff pdk l1 l2 s, fun hx => h2 _ hx, h1⟩

/-- Witness for C5 at the pair of levels (0, 2) of the example rule
table, evaluated at the base contact separation rule. -/
theorem via_array_pitch_margin_spec_witness :
    exPDK.rule_min_sep "mcon" ∈ spacingList exPDK 0 2 ∧
    exPDK.rule_min_sep "mcon" ≤ listMaxQ (spacingList exPDK 0 2) ∧
    listMaxQ (spacingList exPDK 0 2) ∈ spacingList exPDK 0 2 := by
  have hmem : exPDK.rule_min_sep "mcon" ∈ spacingList exPDK 0 2 := by
    unfold spacingList
    simp
  exact ⟨hmem, (via_array_pitch_margin_spec exPDK 0 2 (exPDK.rule_min_sep "mcon")).2.1 hmem,
    (via_array_pitch_margin_spec exPDK 0 2 (exPDK.rule_min_sep "mcon")).2.2⟩

lemma orOne_eq_max {n : ℤ} (h : 0 ≤ n) : orOne n = max 1 n := by
  unfold orOne
  split <;> omega

lemma via_array_eq_of_check {pdk : MappedPDK} {g1 g2 : String} {l1 l2 : ℕ}
    (h : error_check_order_layers pdk g1 g2 = Except.ok (l1, l2)) (hne : l1 ≠ l2)
    (size : ℚ × ℚ) :
    via_array pdk g1 g2 size =
      (if viadimOf (stackRects pdk l1 l2) > size.1 ∨
          viadimOf (stackRects pdk l1 l2) > size.2
       then Except.error Err.areaTooSmall
       else Except.ok (arrayRects (stackRects pdk l1 l2)
          (orOne ⌊size.1 / (viadimOf (stackRects pdk l1 l2) +
            listMaxQ (spacingList pdk l1 l2))⌋).toNat
          (orOne ⌊size.2 / (viadimOf (stackRects pdk l1 l2) +
            listMaxQ (spacingList pdk l1 l2))⌋).toNat
          (listMaxQ (spacingList pdk l1 l2) + viadimOf (stackRects pdk l1 l2)) ++
          [{ glayer := metStr l2, w := size.1, h := size.2, x := 0, y := 0 }])) := by
  have hstack : via_stack pdk g1 g2 = Except.ok (stackRects pdk l1 l2) := by
    rw [via_stack_eq_of_check h]
    simp [hne]
  unfold via_array
  rw [h]
  dsimp only
  rw [if_neg hne, hstack]

/-- C4: once the layers resolve to distinct levels and the rule values
give a positive full pitch, via_array fails with the area error exactly
when the square bounding dimension of the reference stack exceeds either
requested dimension; otherwise it succeeds and each per-axis instance
count is the floor of axis length over full pitch, floored to a minimum
of 1, so at least a 1 by 1 grid is placed. -/
theorem via_array_area_check_and_counts (pdk : MappedPDK) (g1 g2 : String)
    (size : ℚ × ℚ) (l1 l2 : ℕ)
    (hcheck : error_check_order_layers pdk g1 g2 = Except.ok (l1, l2)) (hne : l1 ≠ l2)
    (hs1 : 0 ≤ size.1) (hs2 : 0 ≤ size.2)
    (hpitch : 0 < viadimOf (stackRects pdk l1 l2) + listMaxQ (spacingList pdk l1 l2)) :
    ((viadimOf (stackRects pdk l1 l2) > size.1 ∨
        viadimOf (stackRects pdk l1 l2) > size.2) →
      via_array pdk g1 g2 size = Except.error Err.areaTooSmall) ∧
    (viadimOf (stackRects pdk l1 l2) ≤ size.1 →
      viadimOf (stackRects pdk l1 l2) ≤ size.2 →
      via_array pdk g1 g2 size = Except.ok (arrayRects (stackRects pdk l1 l2)
          (max 1 ⌊size.1 / (viadimOf (stackRects pdk l1 l2) +
            listMaxQ (spacingList pdk l1 l2))⌋).toNat
          (max 1 ⌊size.2 / (viadimOf (stackRects pdk l1 l2) +
            listMaxQ (spacingList pdk l1 l2))⌋).toNat
          (listMaxQ (spacingList pdk l1 l2) + viadimOf (stackRects pdk l1 l2)) ++
          [{ glayer := metStr l2, w := size.1, h := size.2, x := 0, y := 0 }]) ∧
      1 ≤ (max 1 ⌊size.1 / (viadimOf (stackRects pdk l1 l2) +
            listMaxQ (spacingList pdk l1 l2))⌋).toNat ∧
      1 ≤ (max 1 ⌊size.2 / (viadimOf (stackRects pdk l1 l2) +
            listMaxQ (spacingList pdk l1 l2))⌋).toNat) := by
  have heq := via_array_eq_of_check hcheck hne size
  constructor
  · intro hbig
    rw [heq, if_pos hbig]
  · intro h1 h2
    have hnotbig : ¬(viadimOf (stackRects pdk l1 l2) > size.1 ∨
        viadimOf (stackRects pdk l1 l2) > size.2) := by
      push_neg
      exact ⟨h1, h2⟩
    have hfl1 : 0 ≤ ⌊size.1 / (viadimOf (stackRects pdk l1 l2) +
        listMaxQ (spacingList pdk l1 l2))⌋ :=
      Int.floor_nonneg.mpr (div_nonneg hs1 (le_of_lt hpitch))
    have hfl2 : 0 ≤ ⌊size.2 / (viadimOf (stackRects pdk l1 l2) +
        listMaxQ (spacingList pdk l1 l2))⌋ :=
      Int.floor_nonneg.mpr (div_nonneg hs2 (le_of_lt hpitch))
    rw [heq, if_neg hnotbig, orOne_eq_max hfl1, orOne_eq_max hfl2]
    exact ⟨rfl, by omega, by omega⟩

/-- Witness for C4: a 0.1-wide request cannot hold the 0.36-wide met1-met2
stack and fails with the area error, while the default 4 by 2 area yields
counts of at least one on both axes. -/
theorem via_array_area_check_and_counts_witness :
    via_array exPDK "met1" "met2" (1/10, 2) = Except.error Err.areaTooSmall ∧
    1 ≤ (max 1 ⌊(4:ℚ) / (viadimOf (stackRects exPDK 1 2) +
          listMaxQ (spacingList exPDK 1 2))⌋).toNat ∧
    1 ≤ (max 1 ⌊(2:ℚ) / (viadimOf (stackRects exPDK 1 2) +
          listMaxQ (spacingList exPDK 1 2))⌋).toNat := by
  have hd : viadimOf (stackRects exPDK 1 2) = 9/25 := by
    have hlist : stackRects exPDK 1 2 = [metPadRect exPDK "met1" "via1",
        viaCutRect exPDK "via1", metPadRect exPDK "met2" "via1"] := rfl
    rw [hlist]
    simp +decide [viadimOf, bboxSpanX, bboxSpanY, listMaxQ, listMinQ, metPadRect,
      viaCutRect, exPDK]
    norm_num
  have hm : listMaxQ (spacingList exPDK 1 2) = 17/100 := by
    simp +decide [listMaxQ, spacingList, exPDK, metStr, viaStr, List.range_succ]
    norm_num
  have hpitch : (0:ℚ) < viadimOf (stackRects exPDK 1 2) +
      listMaxQ (spacingList exPDK 1 2) := by
    rw [hd, hm]
    norm_num
  refine ⟨(via_array_area_check_and_counts exPDK "met1" "met2" (1/10, 2) 1 2
      (by decide) (by decide) (by norm_num) (by norm_num) hpitch).1 ?_,
    ((via_array_area_check_and_counts exPDK "met1" "met2" (4, 2) 1 2
      (by decide) (by decide) (by norm_num) (by norm_num) hpitch).2
      (by rw [hd]; norm_num) (by rw [hd]; norm_num)).2.1,
    ((via_array_area_check_and_counts exPDK "met1" "met2" (4, 2) 1 2
      (by decide) (by decide) (by norm_num) (by norm_num) hpitch).2
      (by rw [hd]; norm_num) (by rw [hd]; norm_num)).2.2⟩
  exact Or.inl (by rw [hd]; norm_num)

lemma ceilHalf_two_mul (k : ℕ) : ceilHalf (2 * k) = k := by
  unfold ceilHalf
  omega

lemma ceilHalf_two_mul_add_one (k : ℕ) : ceilHalf (2 * k + 1) = k + 1 := by
  unfold ceilHalf
  omega

lemma signedRank_even (k : ℕ) : signedRank (2 * k) = k := by
  unfold signedRank
  rw [pow_mul, ceilHalf_two_mul]
  norm_num

lemma signedRank_odd (k : ℕ) : signedRank (2 * k + 1) = -(k + 1) := by
  unfold signedRank
  rw [pow_succ, pow_mul, ceilHalf_two_mul_add_one]
  push_cast
  ring_nf

lemma offsetFor_eq (n i : ℕ) (p : ℚ) :
    offsetFor n i p = (uVal n i : ℚ) * p / 2 := by
  unfold offsetFor uVal signedRank
  by_cases h : n % 2 = 0 <;> simp only [h, if_true, if_false, reduceIte] <;>
    push_cast <;> ring

lemma uVal_parity (n i : ℕ) :
    uVal n i % 2 = (if n % 2 = 0 then 1 else 0) := by
  unfold uVal
  by_cases h : n % 2 = 0 <;> simp only [h, if_true, if_false, reduceIte] <;> omega

lemma uVal_bounds (n i : ℕ) (h : i < n) :
    uVal n i ≤ (n : ℤ) - 1 ∧ -((n : ℤ) - 1) ≤ uVal n i := by
  unfold uVal
  rcases Nat.even_or_odd i with ⟨k, rfl⟩ | ⟨k, rfl⟩
  · rw [← two_mul, signedRank_even]
    by_cases hn : n % 2 = 0 <;> simp only [hn, if_true, if_false, reduceIte] <;> omega
  · rw [signedRank_odd]
    by_cases hn : n % 2 = 0 <;> simp only [hn, if_true, if_false, reduceIte] <;> omega

lemma uVal_surj (n : ℕ) (v : ℤ) (hub : v ≤ (n : ℤ) - 1) (hlb : -((n : ℤ) - 1) ≤ v)
    (hpar : v % 2 = (if n % 2 = 0 then 1 else 0)) :
    ∃ i, i < n ∧ uVal n i = v := by
  by_cases hn2 : n % 2 = 0 <;> simp only [hn2, if_true, if_false, reduceIte] at hpar
  · by_cases hv : 1 ≤ v
    · refine ⟨(v - 1).toNat, by omega, ?_⟩
      unfold uVal
      simp only [hn2, reduceIte]
      have hk : (v - 1).toNat = 2 * ((v - 1).toNat / 2) := by omega
      rw [hk, signedRank_even]
      omega
    · refine ⟨(-v).toNat, by omega, ?_⟩
      unfold uVal
      simp only [hn2, reduceIte]
      have hk : (-v).toNat = 2 * (((-v).toNat - 1) / 2) + 1 := by omega
      rw [hk, signedRank_odd]
      omega
  · by_cases hv : 0 ≤ v
    · refine ⟨v.toNat, by omega, ?_⟩
      unfold uVal
      simp only [hn2, reduceIte]
      have hk : v.toNat = 2 * (v.toNat / 2) := by omega
      rw [hk, signedRank_even]
      omega
    · refine ⟨(-v - 1).toNat, by omega, ?_⟩
      unfold uVal
      simp only [hn2, reduceIte]
      have hk : (-v - 1).toNat = 2 * (((-v - 1).toNat - 1) / 2) + 1 := by omega
      rw [hk, signedRank_odd]
      omega

lemma uVal_lt_iff {n i j : ℕ} {p : ℚ} (hp : 0 < p) :
    offsetFor n i p < offsetFor n j p ↔ uVal n i < uVal n j := by
  rw [offsetFor_eq, offsetFor_eq,
    div_lt_div_iff_of_pos_right (by norm_num : (0:ℚ) < 2), mul_lt_mul_right hp,
    Int.cast_lt]

lemma offset_lt_zero_iff {n i : ℕ} {p : ℚ} (hp : 0 < p) :
    offsetFor n i p < 0 ↔ uVal n i < 0 := by
  have h2 : (0:ℚ) < p / 2 := by positivity
  rw [offsetFor_eq, mul_div_assoc, mul_neg_iff]
  simp [h2, lt_asymm h2, Int.cast_lt_zero]

lemma offset_pos_iff {n i : ℕ} {p : ℚ} (hp : 0 < p) :
    0 < offsetFor n i p ↔ 0 < uVal n i := by
  have h2 : (0:ℚ) < p / 2 := by positivity
  rw [offsetFor_eq, mul_div_assoc, mul_pos_iff]
  simp [h2, lt_asymm h2, Int.cast_pos]

lemma offset_eq_zero_iff {n i : ℕ} {p : ℚ} (hp : 0 < p) :
    offsetFor n i p = 0 ↔ uVal n i = 0 := by
  rw [offsetFor_eq]
  simp [div_eq_zero_iff, mul_eq_zero, ne_of_gt hp, Int.cast_eq_zero]

lemma uVal_plus_two_exists (n i : ℕ) (hi : i < n) (hub : uVal n i + 2 ≤ (n : ℤ) - 1) :
    ∃ k, k < n ∧ uVal n k = uVal n i + 2 := by
  have hbi := uVal_bounds n i hi
  have hpi := uVal_parity n i
  apply uVal_surj n _ hub (by omega)
  by_cases hn2 : n % 2 = 0 <;> simp only [hn2, if_true, if_false, reduceIte] at hpi ⊢ <;>
    omega

/-- C6: the rectangles of the reference stack are all centered on the
shared origin, so each placed instance is centered at its axis offsets;
and along an axis, two placed instances with no third instance strictly
between them are exactly one full pitch apart.  Together these give the
claimed center-to-center distance of d + margin between adjacent stacks,
since via_array places instance i of an axis at offsetFor count i pitch
with pitch = margin + d. -/
theorem via_array_pitch_distance :
    (∀ (pdk : MappedPDK) (l1 l2 : ℕ) (r : Rect), r ∈ stackRects pdk l1 l2 →
      r.x = 0 ∧ r.y = 0) ∧
    (∀ (n i j : ℕ) (p : ℚ), 0 < p → i < n → j < n →
      offsetFor n i p < offsetFor n j p →
      (∀ k, k < n → ¬(offsetFor n i p < offsetFor n k p ∧
        offsetFor n k p < offsetFor n j p)) →
      offsetFor n j p - offsetFor n i p = p) := by
  constructor
  · intro pdk l1 l2 r hr
    exact (stackRects_square_centered hr).2
  · intro n i j p hp hi hj hlt hnb
    have hu : uVal n i < uVal n j := (uVal_lt_iff hp).mp hlt
    have hpar : uVal n i % 2 = uVal n j % 2 := by
      rw [uVal_parity, uVal_parity]
    have hbj := uVal_bounds n j hj
    have h2 : uVal n j = uVal n i + 2 := by
      by_contra hne2
      obtain ⟨k, hk, huk⟩ := uVal_plus_two_exists n i hi (by omega)
      exact hnb k hk ⟨(uVal_lt_iff hp).mpr (by omega), (uVal_lt_iff hp).mpr (by omega)⟩
    rw [offsetFor_eq, offsetFor_eq, h2]
    push_cast
    ring

/-- Witness for C6: the met1 pad of the met1-met2 stack is centered at the
origin, and in a 3-instance axis at unit pitch the instances at offsets
-1 and 0 are adjacent and exactly one pitch apart. -/
theorem via_array_pitch_distance_witness :
    ((metPadRect exPDK "met1" "via1").x = 0 ∧ (metPadRect exPDK "met1" "via1").y = 0) ∧
    offsetFor 3 0 1 - offsetFor 3 1 1 = 1 := by
  constructor
  · refine via_array_pitch_distance.1 exPDK 1 2 (metPadRect exPDK "met1" "via1") ?_
    rw [show stackRects exPDK 1 2 = [metPadRect exPDK "met1" "via1",
      viaCutRect exPDK "via1", metPadRect exPDK "met2" "via1"] from rfl]
    exact List.mem_cons_self _ _
  · refine via_array_pitch_distance.2 3 1 0 1 (by norm_num) (by norm_num)
      (by norm_num) (by norm_num [offsetFor, ceilHalf]) ?_
    intro k hk
    interval_cases k <;> norm_num [offsetFor, ceilHalf]

lemma uVal_sign_odd (n i : ℕ) (hn : ¬(n % 2 = 0)) :
    (uVal n i < 0 ↔ i % 2 = 1) ∧ (0 < uVal n i ↔ i % 2 = 0 ∧ i ≠ 0) ∧
    (uVal n i = 0 ↔ i = 0) := by
  unfold uVal
  simp only [hn, if_false, reduceIte, add_zero]
  rcases Nat.even_or_odd i with ⟨k, rfl⟩ | ⟨k, rfl⟩
  · rw [← two_mul, signedRank_even]
    omega
  · rw [signedRank_odd]
    omega

lemma uVal_even_pair (n i : ℕ) (hn : n % 2 = 0) :
    (i % 2 = 0 → uVal n (i + 1) = -uVal n i) ∧
    (i % 2 = 1 → uVal n (i - 1) = -uVal n i) := by
  unfold uVal
  simp only [hn, reduceIte]
  rcases Nat.even_or_odd i with ⟨k, rfl⟩ | ⟨k, rfl⟩
  · constructor
    · intro _
      rw [← two_mul, signedRank_odd, signedRank_even]
      ring
    · intro h
      exact absurd h (by omega)
  · constructor
    · intro h
      exact absurd h (by omega)
    · intro _
      have h1 : 2 * k + 1 - 1 = 2 * k := by omega
      rw [h1, signedRank_even, signedRank_odd]
      ring

lemma count_odd_filter (n : ℕ) :
    ((List.range n).filter (fun i => decide (i % 2 = 1))).length = n / 2 := by
  induction n with
  | zero => rfl
  | succ m ih =>
      rw [List.range_succ, List.filter_append, List.length_append, ih]
      by_cases h : m % 2 = 1 <;> simp [List.filter, h] <;> omega

lemma count_evenpos_filter (n : ℕ) :
    ((List.range n).filter (fun i => decide (i % 2 = 0 ∧ i ≠ 0))).length =
      (n - 1) / 2 := by
  induction n with
  | zero => rfl
  | succ m ih =>
      rw [List.range_succ, List.filter_append, List.length_append, ih]
      by_cases h : m % 2 = 0 ∧ m ≠ 0 <;> simp [List.filter, h] <;> omega

/-- C7: along an axis with a positive pitch, an odd instance count puts
the loop-index-0 instance exactly on the centerline with exactly
(count - 1) / 2 instances strictly on each side of it (so it is the
instance with index (count - 1) / 2 in left-to-right order), while an even
count puts no instance on the centerline and the set of offsets is
symmetric about it. -/
theorem via_array_axis_symmetry (n : ℕ) (p : ℚ) (hp : 0 < p) :
    (n % 2 = 1 →
      offsetFor n 0 p = 0 ∧
      ((List.range n).filter (fun i => decide (offsetFor n i p < 0))).length =
        (n - 1) / 2 ∧
      ((List.range n).filter (fun i => decide (0 < offsetFor n i p))).length =
        (n - 1) / 2) ∧
    (n % 2 = 0 →
      (∀ i, i < n → offsetFor n i p ≠ 0) ∧
      (∀ i, i < n → ∃ j, j < n ∧ offsetFor n j p = -offsetFor n i p)) := by
  constructor
  · intro hn
    have hn' : ¬(n % 2 = 0) := by omega
    have hcong1 : ∀ i ∈ List.range n,
        (decide (offsetFor n i p < 0)) = decide (i % 2 = 1) := by
      intro i _
      rw [decide_eq_decide]
      exact (offset_lt_zero_iff hp).trans (uVal_sign_odd n i hn').1
    have hcong2 : ∀ i ∈ List.range n,
        (decide (0 < offsetFor n i p)) = decide (i % 2 = 0 ∧ i ≠ 0) := by
      intro i _
      rw [decide_eq_decide]
      exact (offset_pos_iff hp).trans (uVal_sign_odd n i hn').2.1
    refine ⟨?_, ?_, ?_⟩
    · rw [offset_eq_zero_iff hp]
      exact (uVal_sign_odd n 0 hn').2.2.mpr rfl
    · rw [List.filter_congr hcong1, count_odd_filter]
      omega
    · rw [List.filter_congr hcong2, count_evenpos_filter]
  · intro hn
    constructor
    · intro i hi
      rw [Ne, offset_eq_zero_iff hp]
      have hpi := uVal_parity n i
      simp only [hn, reduceIte] at hpi
      omega
    · intro i hi
      refine ⟨if i % 2 = 0 then i + 1 else i - 1, ?_, ?_⟩
      · by_cases h : i % 2 = 0
        · rw [if_pos h]
          omega
        · rw [if_neg h]
          omega
      · by_cases h : i % 2 = 0
        · rw [if_pos h, offsetFor_eq, offsetFor_eq, (uVal_even_pair n i hn).1 h]
          push_cast
          ring
        · rw [if_neg h, offsetFor_eq, offsetFor_eq,
            (uVal_even_pair n i hn).2 (by omega)]
          push_cast
          ring

/-- Witness for C7: with three instances at unit pitch the first loop
index sits on the centerline; with two instances no offset is zero. -/
theorem via_array_axis_symmetry_witness :
    offsetFor 3 0 1 = 0 ∧ (∀ i, i < 2 → offsetFor 2 i 1 ≠ 0) :=
  ⟨((via_array_axis_symmetry 3 1 (by norm_num)).1 (by decide)).1,
   ((via_array_axis_symmetry 2 1 (by norm_num)).2 (by decide)).1⟩

end ViaGen
